import Mathlib

/-!
# Verification of the localseek hybrid retrieval enhancement pipeline

Shallow embedding of the Python source of `localseek` (query expansion,
reciprocal-rank fusion, LLM reranking and score blending), together with
theorems settling the specification claims.

Modelling conventions, used throughout:

* Python `float` values are modelled as exact rationals (`ℚ`).
* Python strings are modelled as character lists (`Str := List Char`), with
  the Python string methods the pipeline uses (`strip`, `lower`, `split`,
  single-character `replace`) spelled out on `Str`; `str` injects Lean string
  literals.
* Python lists are `List`; Python `dict`s are insertion-ordered association
  lists (CPython dictionaries preserve insertion order, which the fusion code
  relies on).
* The sqlite-backed caches are association lists threaded through functions as
  explicit state (the Python code mutates the cache object in place).
* The external hash primitives (`hashlib.sha256(...).hexdigest()` and
  `hashlib.md5(...).hexdigest()`) are opaque external capabilities, modelled
  as a parameter `HashFns`.  The pipeline only uses them as deterministic
  string-to-string functions.
* The external LLM client (`llm_client.get_llm_client()`) is modelled by the
  observable behaviour of a single call: the `is_available()` flag and the
  `Optional[str]` value returned by `chat` (`Llm`).  The prompt text only
  influences which response the external model produces, so it is absorbed
  into the modelled response.
* Python's stable `list.sort(key=..., reverse=True)` and `sorted(...,
  reverse=True)` are modelled by a stable insertion sort on a rational sort
  key, descending; any two stable sorts under the same key agree, so the
  choice of algorithm is immaterial.
-/

namespace LocalSeek

/-! ## Definitions: the embedding of the pipeline, the claim-level
specification functions, and concrete instances used in closed theorems -/

/-- Python strings, as character lists. -/

abbrev Str := List Char

/-- A Lean string literal as a Python string. -/

def str (s : String) : Str := s.data

/-- Python `str.strip()`: drop leading and trailing whitespace. -/

def pyStrip (s : Str) : Str :=
  ((s.dropWhile Char.isWhitespace).reverse.dropWhile Char.isWhitespace).reverse

/-- Python `str.lower()`. -/

def pyLower (s : Str) : Str := s.map Char.toLower

/-- Split at every character satisfying `p`, keeping empty fragments —
the splitting skeleton of Python `str.split(sep)`. -/

def splitWhen (p : Char → Bool) : Str → List Str
  | [] => [[]]
  | c :: t =>
    let r := splitWhen p t
    if p c then [] :: r
    else
      match r with
      | h :: t' => (c :: h) :: t'
      | [] => [[c]]

/-- Python `str.split("\n")`: split at newlines, keeping empty fragments. -/

def pySplitNl (s : Str) : List Str := splitWhen (fun c => c == '\n') s

/-- Python `str.split()` with no separator: split on whitespace and drop
empty fragments. -/

def pySplitWs (s : Str) : List Str :=
  (splitWhen Char.isWhitespace s).filter (fun t => t ≠ [])

/-- Python `str.replace(c, "")` for a single-character pattern. -/

def removeChar (c : Char) (s : Str) : Str := s.filter (fun d => d ≠ c)

/-- Python `str.replace(a, b)` for single-character pattern and replacement. -/

def replaceChar (a b : Char) (s : Str) : Str :=
  s.map (fun d => if d = a then b else d)

/-- Observable outcome of Python `float(token)` on a whitespace-free token:
a finite value (exact, in `ℚ`), a special value (`nan`/`inf`/`-inf`, which
parse successfully but never satisfy `0 <= x <= 10`), or a `ValueError`. -/

inductive PyFloat where
| num (q : ℚ)
| special
| err
deriving DecidableEq

/-- Value of a nonempty all-digit character run, `none` otherwise. -/

def digitsVal (cs : Str) : Option Nat :=
  if cs ≠ [] ∧ cs.all Char.isDigit then
    some (cs.foldl (fun a c => a * 10 + (c.toNat - 48)) 0)
  else none

/-- Strip one optional leading sign; returns (isNegative, rest). -/

def splitSign : Str → Bool × Str
  | '+' :: r => (false, r)
  | '-' :: r => (true, r)
  | r => (false, r)

/-- Python `float(token)` for the tokens the rerank response parser can
produce (they contain no `.`, having been split after `replace(".", " ")`,
and no whitespace).  Modelled for an optional sign, a digit run, an optional
decimal exponent, and the `inf`/`infinity`/`nan` spellings; forms Python
additionally accepts (digit-group underscores) are not modelled. -/

def pyFloat (t : Str) : PyFloat :=
  let (neg, body) := splitSign t
  let low := body.map Char.toLower
  if low = str "inf" ∨ low = str "infinity" ∨ low = str "nan" then
    PyFloat.special
  else
    let (mant, rest) := body.span (fun c => c != 'e' && c != 'E')
    match rest with
    | [] =>
      match digitsVal mant with
      | some m => PyFloat.num (if neg then -(m : ℚ) else (m : ℚ))
      | none => PyFloat.err
    | _ :: ex =>
      let (eneg, edig) := splitSign ex
      match digitsVal mant, digitsVal edig with
      | some m, some e =>
        let mag : ℚ := if eneg then (m : ℚ) / ((10 ^ e : ℕ) : ℚ) else ((m * 10 ^ e : ℕ) : ℚ)
        PyFloat.num (if neg then -mag else mag)
      | _, _ => PyFloat.err

/-- External hash primitives used by the pipeline (hex digests of sha256 and
md5).  The code only uses them as deterministic string-to-string functions. -/

structure HashFns where
  sha256 : Str → Str
  md5 : Str → Str

/-- Observable behaviour of one call to the external LLM client:
`is_available()` and the `Optional[str]` return of `chat` (`None` on any
transport failure). -/

structure Llm where
  available : Bool
  response : Option Str
deriving DecidableEq

/-- `hashlib.sha256(query.lower().strip().encode()).hexdigest()` — the
normalized query fingerprint shared by `expand_query` and `rerank_results`. -/

def queryFingerprint (H : HashFns) (query : Str) : Str :=
  H.sha256 (pyStrip (pyLower query))

/-- `count = count or config.expand_count` (likewise
`topk = topk or config.rerank_topk`): Python `or` falls back to the config
value when the argument is `None` or `0`. -/

def effOr (arg : Option Nat) (cfg : Nat) : Nat :=
  match arg with
  | none => cfg
  | some c => if c = 0 then cfg else c

/-- Stable insertion (descending by `key`): `x` goes before the first element
whose key is ≤ its own.  Elements already in the list came later in the
original order, so this realizes Python's stable sort tie-breaking. -/

def insertByDesc (key : α → ℚ) (x : α) : List α → List α
  | [] => [x]
  | y :: t => if key y ≤ key x then x :: y :: t else y :: insertByDesc key x t

/-- Stable sort, descending by `key` — the model of Python
`sorted(..., key=..., reverse=True)` / `list.sort(key=..., reverse=True)`
(any two stable sorts under the same key coincide). -/

def sortByDesc (key : α → ℚ) : List α → List α
  | [] => []
  | x :: t => insertByDesc key x (sortByDesc key t)

/-- The five characters of the list-marker set written in the source as
`"-â€¢*"` (the bullet `•` appears double-encoded in the source, yielding
`'-'`, `'â'`, `'€'`, `'¢'`, `'*'`). -/

def bulletMarkers : Str := str "-â€¢*"

/-- The loop body of `expand_query`'s response parsing for one line: `some`
kept alternative, `none` when the line is discarded.  Mirrors:
`line = line.strip()`; `if line and len(line) > 2:`; strip a leading digit
followed by one of `.):` (`line[2:].strip()`), else strip one leading
character of `bulletMarkers` (`line[1:].strip()`); keep the result if
nonempty and not case-insensitively equal to the query. -/

def expandLineKeep (query line : Str) : Option Str :=
  let l := pyStrip line
  if l ≠ [] ∧ l.length > 2 then
    let l2 :=
      match l with
      | c0 :: c1 :: rest =>
        if c0.isDigit ∧ (str ".):").contains c1 then pyStrip rest
        else if bulletMarkers.contains c0 then pyStrip (c1 :: rest)
        else l
      | _ => l
    if l2 ≠ [] ∧ pyLower l2 ≠ pyLower query then some l2 else none
  else none

/-- The expansion-parsing loop of `expand_query` (source lines 66–77), before
the final truncation to `count`: each line of `response.strip().split("\n")`
through `expandLineKeep`, in order. -/

def parseExpansions (query resp : Str) : List Str :=
  (pySplitNl (pyStrip resp)).filterMap (expandLineKeep query)

/-- One row of the `expansion_cache` table (`model_version` and `created_at`
carry no pipeline-visible information and are omitted). -/

structure ExpEntry where
  query : Str
  expansions : List Str
  hitCount : Nat
deriving DecidableEq

/-- The `expansion_cache` table, keyed by `query_hash` (primary key). -/

abbrev ExpCache := List (Str × ExpEntry)

/-- `ExpansionCache.get`: returns the stored expansions and bumps the row's
`hit_count` when the row exists. -/

def expCacheGet : ExpCache → Str → Option (List Str) × ExpCache
  | [], _ => (none, [])
  | (k, e) :: t, qh =>
    if k = qh then (some e.expansions, (k, { e with hitCount := e.hitCount + 1 }) :: t)
    else
      let (r, t') := expCacheGet t qh
      (r, (k, e) :: t')

/-- `ExpansionCache.set`: `INSERT OR REPLACE` keyed on `query_hash`; the
replaced row's `hit_count` reverts to the column default `0`. -/

def expCacheSet : ExpCache → Str → Str → List Str → ExpCache
  | [], qh, q, exps => [(qh, ⟨q, exps, 0⟩)]
  | (k, e) :: t, qh, q, exps =>
    if k = qh then (qh, ⟨q, exps, 0⟩) :: t
    else (k, e) :: expCacheSet t qh q exps

/-- Pure (state-free) view of the stored expansions for a fingerprint. -/

def expCacheLookup : ExpCache → Str → Option (List Str)
  | [], _ => none
  | (k, e) :: t, qh => if k = qh then some e.expansions else expCacheLookup t qh

/-- The post-cache-miss part of `expand_query` (source lines 47–86): LLM
availability check, `chat` call, response truthiness check (`if not
response`), parsing, truncation to `cnt`, and the conditional `cache.set`
(`if cache and expansions`). -/

def expandMiss (llm : Llm) (query : Str) (cnt : Nat) (qh : Str)
    (cache : Option ExpCache) : List Str × Bool × Option ExpCache :=
  if llm.available then
    match llm.response with
    | none => ([query], false, cache)
    | some resp =>
      if resp = [] then ([query], false, cache)
      else
        let expansions := (parseExpansions query resp).take cnt
        let cache' :=
          match cache with
          | some st =>
            if expansions ≠ [] then some (expCacheSet st qh query expansions) else some st
          | none => none
        (query :: expansions, false, cache')
  else ([query], false, cache)

/-- `expand_query(query, count, cache)`.  The mutated cache is returned as the
third component.  On a cache row whose stored list is empty, Python's
`if cached:` is false and the code falls through to the LLM path (the
`hit_count` bump from `get` has already happened). -/

def expandQuery (H : HashFns) (llm : Llm) (query : Str) (count : Option Nat)
    (cfgCount : Nat) (cache : Option ExpCache) : List Str × Bool × Option ExpCache :=
  let cnt := effOr count cfgCount
  let qh := queryFingerprint H query
  match cache with
  | some st =>
    match expCacheGet st qh with
    | (some cached, st') =>
      if cached ≠ [] then (query :: cached, true, some st')
      else expandMiss llm query cnt qh (some st')
    | (none, st') => expandMiss llm query cnt qh (some st')
  | none => expandMiss llm query cnt qh none

/-- A search-result dict as passed to `rerank_results` (produced by
`SearchResult.to_dict`, which emits `path`, `title`, `snippet`, `score`,
`collection` and `full_path` and no `hash` key).  The `doc.get(key, default)`
accesses are modelled by total fields (with `hash` optional); a dict missing
one of the string keys corresponds to the field holding the `.get` default. -/

structure Doc where
  path : Str
  title : Str
  snippet : Str
  score : ℚ
  collection : Str
  full_path : Str
  hash : Option Str := none
deriving DecidableEq

instance : Inhabited Doc := ⟨⟨[], [], [], 0, [], [], none⟩⟩

/-- The `RerankResult` dataclass. -/

structure RerankResult where
  path : Str
  title : Str
  snippet : Str
  original_score : ℚ
  rerank_score : ℚ
  blended_score : ℚ
  collection : Str
  full_path : Str
  original_rank : Nat
deriving DecidableEq

/-- The `rerank_cache` table: `cache_key` (primary key) to `score`.  The
stored `query_hash`/`doc_hash`/`model_version`/`created_at` columns are not
read by `get` and are omitted. -/

abbrev RerankCacheSt := List (Str × ℚ)

/-- `RerankCache._make_key(query_hash, doc_hash)`:
`sha256(f"{query_hash}:{doc_hash}")`. -/

def rerankCacheKey (H : HashFns) (qh dh : Str) : Str :=
  H.sha256 (qh ++ str ":" ++ dh)

/-- `RerankCache.get` (this table has no hit counter). -/

def rerankCacheGet : RerankCacheSt → Str → Option ℚ
  | [], _ => none
  | (k, v) :: t, key => if k = key then some v else rerankCacheGet t key

/-- `RerankCache.set`: `INSERT OR REPLACE` on the primary key. -/

def rerankCacheSet : RerankCacheSt → Str → ℚ → RerankCacheSt
  | [], key, v => [(key, v)]
  | (k, w) :: t, key, v =>
    if k = key then (key, v) :: t else (k, w) :: rerankCacheSet t key v

/-- `doc.get("hash", hashlib.md5(doc.get("snippet", "").encode()).hexdigest())`. -/

def docFingerprint (H : HashFns) (d : Doc) : Str :=
  match d.hash with
  | some h => h
  | none => H.md5 d.snippet

/-- The token list the rerank response parsing examines for one line:
`line.strip()` then `.replace("[", "").replace("]", "").replace(".", " ").split()`
(all three patterns are single characters). -/

def rerankLineTokens (line : Str) : List Str :=
  pySplitWs (replaceChar '.' ' ' (removeChar ']' (removeChar '[' (pyStrip line))))

/-- `for part in reversed(parts): score = float(part); if 0 <= score <= 10:
scores.append(score); break` inside a `try` whose `except` abandons the line:
scanning the reversed token list, a token `float` rejects aborts the whole
line, an out-of-range value is skipped, and the first in-range value wins. -/

def findScoreRev : List Str → Option ℚ
  | [] => none
  | t :: rest =>
    match pyFloat t with
    | .err => none
    | .special => findScoreRev rest
    | .num q => if 0 ≤ q ∧ q ≤ 10 then some q else findScoreRev rest

/-- Score extracted from one response line, if any. -/

def rerankLineScore (line : Str) : Option ℚ :=
  findScoreRev (rerankLineTokens line).reverse

/-- All scores extracted from a (truthy) rerank response, before padding:
the lines of `response.strip().split("\n")`, each through the per-line
extraction. -/

def rerankRawScores (resp : Str) : List ℚ :=
  (pySplitNl (pyStrip resp)).filterMap rerankLineScore

/-- Tail of `_get_llm_scores`: `while len(scores) < len(docs):
scores.append(5.0)` then `return scores[:len(docs)]`. -/

def llmParseScores (resp : Str) (nDocs : Nat) : List ℚ :=
  (rerankRawScores resp ++ List.replicate (nDocs - (rerankRawScores resp).length) 5).take nDocs

/-- `_get_llm_scores(query, docs)`.  The query and document texts only shape
the prompt, which is absorbed into the modelled response, so the observable
behaviour depends on the response and the number of documents: `None` when
the client is unavailable or the response is falsy, otherwise the parsed,
padded and truncated score list. -/

def getLlmScores (llm : Llm) (nDocs : Nat) : Option (List ℚ) :=
  if llm.available then
    match llm.response with
    | none => none
    | some resp => if resp = [] then none else some (llmParseScores resp nDocs)
  else none

/-- Lookup in the per-invocation `scores` dict (keyed by candidate index):
`scores.get(i)`. -/

def scoresGet : List (Nat × ℚ) → Nat → Option ℚ
  | [], _ => none
  | (j, w) :: t, i => if j = i then some w else scoresGet t i

/-- `scores[i] = v`: dict update (overwrite in place, else append). -/

def scoresSet : List (Nat × ℚ) → Nat → ℚ → List (Nat × ℚ)
  | [], i, v => [(i, v)]
  | (j, w) :: t, i, v => if j = i then (i, v) :: t else (j, w) :: scoresSet t i v

/-- One iteration of the cache-lookup loop of `rerank_results` (source lines
72–82): a cache probe for one enumerated candidate; a hit goes into `scores`
and bumps `cache_hits`, a miss appends the index to `uncached_indices`. -/

def cacheProbeStep (H : HashFns) (cache : Option RerankCacheSt) (qh : Str)
    (st : Nat × List (Nat × ℚ) × List Nat) (p : Nat × Doc) :
    Nat × List (Nat × ℚ) × List Nat :=
  match cache with
  | some c =>
    match rerankCacheGet c (rerankCacheKey H qh (docFingerprint H p.2)) with
    | some v => (st.1 + 1, scoresSet st.2.1 p.1 v, st.2.2)
    | none => (st.1, st.2.1, st.2.2 ++ [p.1])
  | none => (st.1, st.2.1, st.2.2 ++ [p.1])

/-- The cache-lookup phase of `rerank_results` (source lines 68–82):
returns `(cache_hits, scores, uncached_indices)`. -/

def rerankCachePhase (H : HashFns) (cache : Option RerankCacheSt) (qh : Str)
    (candidates : List Doc) : Nat × List (Nat × ℚ) × List Nat :=
  candidates.enum.foldl (cacheProbeStep H cache qh) (0, [], [])

/-- `scores[idx] = 5.0` for every uncached index — the `else` branch of the
LLM phase (source lines 97–100). -/

def rerankNeutral (uncached : List Nat) (sc : List (Nat × ℚ)) : List (Nat × ℚ) :=
  uncached.foldl (fun s idx => scoresSet s idx 5) sc

/-- The LLM-scoring phase of `rerank_results` (source lines 84–100): when
there are uncached candidates, one batched model call; on a truthy score list
(`if llm_scores:`) each `(idx, score)` of `zip(uncached_indices, llm_scores)`
is recorded in `scores` and, when a cache is present, written through
`RerankCache.set`; otherwise every uncached index receives the neutral `5.0`
and nothing is written to the cache. -/

def rerankLlmPhase (H : HashFns) (llm : Llm) (qh : Str) (candidates : List Doc)
    (uncached : List Nat) (sc : List (Nat × ℚ)) (cache : Option RerankCacheSt) :
    List (Nat × ℚ) × Option RerankCacheSt :=
  if uncached ≠ [] then
    match getLlmScores llm uncached.length with
    | some ss =>
      if ss ≠ [] then
        (uncached.zip ss).foldl
          (fun st p =>
            (scoresSet st.1 p.1 p.2,
              match st.2 with
              | some c =>
                some (rerankCacheSet c
                  (rerankCacheKey H qh (docFingerprint H (candidates.getD p.1 default))) p.2)
              | none => none))
          (sc, cache)
      else (rerankNeutral uncached sc, cache)
    | none => (rerankNeutral uncached sc, cache)
  else (sc, cache)

/-- `weight_bm25`, the rank-dependent lexical trust weight (1-based rank);
the Python literals `0.75`, `0.60`, `0.40` as exact rationals. -/

def weightBm25 (original_rank : Nat) : ℚ :=
  if original_rank ≤ 3 then 3 / 4 else if original_rank ≤ 10 then 3 / 5 else 2 / 5

/-- The blend loop of `rerank_results` (source lines 102–133), before the
final sort: one `RerankResult` per candidate, in input order. -/

def blendPhase (candidates : List Doc) (sc : List (Nat × ℚ)) : List RerankResult :=
  candidates.enum.map (fun p =>
    let original_rank := p.1 + 1
    let original_score := p.2.score
    let rerank_score := ((scoresGet sc p.1).getD 5) / 10
    let weight := weightBm25 original_rank
    let norm_original := min (original_score / 15) 1
    { path := p.2.path, title := p.2.title, snippet := p.2.snippet,
      original_score := original_score,
      rerank_score := (scoresGet sc p.1).getD 5,
      blended_score := weight * norm_original + (1 - weight) * rerank_score,
      collection := p.2.collection, full_path := p.2.full_path,
      original_rank := original_rank })

/-- `rerank_results(query, results, topk, cache)`.  Returns the reranked
list, `cache_hits`, and the final cache state (the Python function mutates
the cache object it is given). -/

def rerankResults (H : HashFns) (llm : Llm) (query : Str) (results : List Doc)
    (topk : Option Nat) (cfgTopk : Nat) (cache : Option RerankCacheSt) :
    List RerankResult × Nat × Option RerankCacheSt :=
  let candidates := results.take (effOr topk cfgTopk)
  if candidates = [] then ([], 0, cache)
  else
    let qh := queryFingerprint H query
    let (hits, sc, uncached) := rerankCachePhase H cache qh candidates
    let (sc', cache') := rerankLlmPhase H llm qh candidates uncached sc cache
    (sortByDesc (fun r => r.blended_score) (blendPhase candidates sc'), hits, cache')

/-- A `SearchResult` as produced by the lexical `Searcher` (the fields
`_rrf_merge` and the CLI read). -/

structure SearchResult where
  path : Str
  title : Str
  snippet : Str
  score : ℚ
  collection : Str
  full_path : Str
deriving DecidableEq

/-- `f"{r.collection}:{r.path}"` — the deduplication key `_rrf_merge` builds
(the results reaching `_rrf_merge` are `SearchResult` objects, so
`hasattr(r, 'collection')` holds). -/

def rrfKey (r : SearchResult) : Str := r.collection ++ str ":" ++ r.path

/-- `(i % (len(results) // len(queries) + 1)) + 1` — the approximate
per-query rank of 0-based stream position `i` (`n` results, `q` queries). -/

def approxRank (n q i : Nat) : Nat := i % (n / q + 1) + 1

/-- One merged per-key record.  In `_rrf_merge` the `scores` dict and the
`result_map` dict always receive exactly the same keys in the same first-seen
order, so the pair is modelled as one insertion-ordered association list. -/

structure RrfEntry where
  key : Str
  rrfScore : ℚ
  firstResult : SearchResult
deriving DecidableEq

/-- One stream occurrence: `scores[key] += v` (bump in place, creating the
entry at the end on first sight) and `if key not in result_map:
result_map[key] = r`. -/

def rrfBump : List RrfEntry → Str → ℚ → SearchResult → List RrfEntry
  | [], key, v, r => [⟨key, v, r⟩]
  | e :: t, key, v, r =>
    if e.key = key then { e with rrfScore := e.rrfScore + v } :: t
    else e :: rrfBump t key v r

/-- The accumulation loop of `_rrf_merge` over the concatenated, enumerated
result stream, with `k = 60`. -/

def rrfAccum (n q : Nat) (results : List SearchResult) : List RrfEntry :=
  results.enum.foldl
    (fun acc p => rrfBump acc (rrfKey p.2) (1 / (60 + (approxRank n q p.1 : ℚ))) p.2) []

/-- `_rrf_merge(results, queries, limit)`: RRF accumulation, stable sort by
accumulated score descending (`sorted(scores.keys(), key=..., reverse=True)`
over the insertion-ordered keys), truncation to `limit`, projection to the
retained first-seen records. -/

def rrfMerge (results : List SearchResult) (queries : List Str) (limit : Nat) :
    List SearchResult :=
  let entries := rrfAccum results.length queries.length results
  ((sortByDesc (fun e => e.rrfScore) entries).take limit).map (fun e => e.firstResult)

/-- Candidate A of the end-to-end example: lexical score 12.0, rank 1. -/

def docA : Doc := ⟨str "A", str "tA", str "sA", 12, str "c", str "fA", none⟩

/-- Candidate B of the end-to-end example: lexical score 8.0, rank 2. -/

def docB : Doc := ⟨str "B", str "tB", str "sB", 8, str "c", str "fB", none⟩

/-- Candidate C of the end-to-end example: lexical score 3.0, rank 3. -/

def docC : Doc := ⟨str "C", str "tC", str "sC", 3, str "c", str "fC", none⟩

/-- A model call answering relevance scores 9, 4, 2, one per line. -/

def llm942 : Llm := ⟨true, some (str "9\n4\n2")⟩

/-- Concrete hash functions for running the pipeline on closed inputs (the
pipeline uses the hashes only as deterministic functions). -/

def idHash : HashFns := ⟨id, id⟩

/-- Expected output record for A: relevance 9, blended `0.75*min(12/15,1) +
0.25*(9/10) = 33/40 = 0.825`. -/

def rrA : RerankResult := ⟨str "A", str "tA", str "sA", 12, 9, 33 / 40, str "c", str "fA", 1⟩

/-- Expected output record for B: relevance 4, rank 2 (lexical weight 0.75),
blended `0.75*min(8/15,1) + 0.25*(4/10) = 1/2 = 0.5`. -/

def rrB : RerankResult := ⟨str "B", str "tB", str "sB", 8, 4, 1 / 2, str "c", str "fB", 2⟩

/-- Expected output record for C: relevance 2, rank 3 (lexical weight 0.75),
blended `0.75*min(3/15,1) + 0.25*(2/10) = 1/5 = 0.2`. -/

def rrC : RerankResult := ⟨str "C", str "tC", str "sC", 3, 2, 1 / 5, str "c", str "fC", 3⟩

/-- The external model call "fails entirely": the client is unavailable, or
`chat` returned `None`, or it returned an empty (falsy) string. -/

def llmFails (llm : Llm) : Prop :=
  llm.available = false ∨ llm.response = none ∨ llm.response = some []

/-- The cache probe `rerank_results` performs for one document. -/

def rerankProbe (H : HashFns) (cache : Option RerankCacheSt) (qh : Str) (d : Doc) :
    Option ℚ :=
  cache.bind (fun st => rerankCacheGet st (rerankCacheKey H qh (docFingerprint H d)))

/-- C6's claimed per-line rule, as the claim states it: extract the last
numeric token of the line (the bracket/dot removal of the tokenizer being the
"optional bracket/index prefix" allowance); a line with no numeric token is
discarded. -/

def c6LineScore (line : Str) : Option ℚ :=
  ((rerankLineTokens line).reverse.filterMap
    (fun t => match pyFloat t with | PyFloat.num q => some q | _ => none)).head?

/-- C6's claimed parse of a whole response: claimed per-line extraction, then
padding with 5.0 to one score per document. -/

def c6ParseScores (resp : Str) (nDocs : Nat) : List ℚ :=
  let scores := (pySplitNl (pyStrip resp)).filterMap c6LineScore
  (scores ++ List.replicate (nDocs - scores.length) 5).take nDocs

/-- C6 (amended wording) per-line rule, in spec combinators: scan the tokens
right-to-left only up to (not including) the first token `float` rejects; of
the numeric values in that prefix, take the first that lies within `[0, 10]`
(out-of-range and `nan`/`inf` values are skipped). -/

def amendedLineScore (line : Str) : Option ℚ :=
  (((rerankLineTokens line).reverse.takeWhile
      (fun t => decide (pyFloat t ≠ PyFloat.err))).filterMap
    (fun t => match pyFloat t with | PyFloat.num q => some q | _ => none)).find?
    (fun q => decide (0 ≤ q ∧ q ≤ 10))

/-- C6 (amended wording) for a whole response: per-line extraction, lines
yielding nothing discarded, padding with 5.0 and truncation to exactly one
score per document. -/

def llmParseScoresAmended (resp : Str) (nDocs : Nat) : List ℚ :=
  let scores := (pySplitNl (pyStrip resp)).filterMap amendedLineScore
  (scores ++ List.replicate (nDocs - scores.length) 5).take nDocs

/-- C7's claimed per-line rule, as the claim states it: strip a leading
single digit followed by `.`/`)`/`:`, or a leading `-`/`•`/`*`; discard
blank lines and lines case-insensitively equal to the original query, and no
others.  (For one-character lines, where the claim is silent about markers,
the line is kept as is; the counterexample input has no such lines.) -/

def c7LineKeep (query line : Str) : Option Str :=
  let l := pyStrip line
  let l2 :=
    match l with
    | c0 :: c1 :: rest =>
      if c0.isDigit ∧ (str ".):").contains c1 then pyStrip rest
      else if (str "-•*").contains c0 then pyStrip (c1 :: rest)
      else l
    | _ => l
  if l2 ≠ [] ∧ pyLower l2 ≠ pyLower query then some l2 else none

/-- C7's claimed parse of a whole response, truncated to the desired count. -/

def c7Parse (query resp : Str) (count : Nat) : List Str :=
  (((pySplitNl (pyStrip resp)).filterMap (c7LineKeep query)).take count)

/-- The marker strip of the amended C7 wording: remove a leading digit
followed by one of `.):`, else one leading character of the five-character
set `'-'`, `'â'`, `'€'`, `'¢'`, `'*'` (the source's double-encoded bullet
set), re-trimming afterwards. -/

def stripMarker (l : Str) : Str :=
  match l with
  | c0 :: c1 :: rest =>
    if c0.isDigit ∧ (str ".):").contains c1 then pyStrip rest
    else if bulletMarkers.contains c0 then pyStrip (c1 :: rest)
    else l
  | _ => l

/-- C7 (amended wording) as a parsing pipeline: trim each line; keep only
lines longer than two characters; strip one leading list marker; keep the
results that are nonempty and not case-insensitively equal to the query. -/

def parseExpansionsAmended (query resp : Str) : List Str :=
  ((((pySplitNl (pyStrip resp)).map pyStrip).filter
      (fun l => decide (2 < l.length))).map stripMarker).filter
    (fun l2 => decide (l2 ≠ [] ∧ pyLower l2 ≠ pyLower query))

/-- A cache holding three alternatives for the fingerprint of `"q"` under the
identity hashes. -/

def expSt3 : ExpCache :=
  [(str "q", ⟨str "q", [str "a1", str "a2", str "a3"], 0⟩)]

/-- The compound cache key `rerank_results` computes for candidate index
`idx`: `hash(query_fingerprint, doc_fingerprint)`. -/

def candKey (H : HashFns) (qh : Str) (candidates : List Doc) (idx : Nat) : Str :=
  rerankCacheKey H qh (docFingerprint H (candidates.getD idx default))

/-- The per-pair state update of the success branch of the LLM phase. -/

def llmWriteStep (H : HashFns) (qh : Str) (candidates : List Doc)
    (st : List (Nat × ℚ) × Option RerankCacheSt) (p : Nat × ℚ) :
    List (Nat × ℚ) × Option RerankCacheSt :=
  (scoresSet st.1 p.1 p.2,
    match st.2 with
    | some c => some (rerankCacheSet c (candKey H qh candidates p.1) p.2)
    | none => none)

/-- Identities in first-seen order (CPython dict key order). -/

def firstSeen [DecidableEq κ] : List κ → List κ
  | [] => []
  | k :: t => k :: (firstSeen t).filter (fun k' => decide (k' ≠ k))

/-- The claim's per-identity reciprocal-rank sum: `1/(60 + approxRank i)`
summed over every stream occurrence of the identity. -/

def rrfSpecScore [DecidableEq κ] (ident : SearchResult → κ) (n q : Nat)
    (results : List SearchResult) (k : κ) : ℚ :=
  ((results.enum.filter (fun p => decide (ident p.2 = k))).map
    (fun p => 1 / (60 + (approxRank n q p.1 : ℚ)))).sum

/-- The first stream occurrence carrying an identity (the record the claim
says is retained). -/

def firstWith [DecidableEq κ] (ident : SearchResult → κ) (results : List SearchResult)
    (k : κ) : Option SearchResult :=
  results.find? (fun r => decide (ident r = k))

/-- The fusion stage exactly as the claim describes it, parameterized by the
candidate identity `ident`: per-identity reciprocal-rank sums over the
stream, identities ordered by summed score descending with ties broken by
first-seen order (stable sort of the first-seen key list), truncation to
`limit`, and projection to the retained first-occurrence records. -/

def rrfMergeSpec [DecidableEq κ] (ident : SearchResult → κ) (results : List SearchResult)
    (queries : List Str) (limit : Nat) : List SearchResult :=
  ((sortByDesc (rrfSpecScore ident results.length queries.length results)
      (firstSeen (results.map ident))).take limit).filterMap (firstWith ident results)

/-- Proof-side generalization of the accumulation loop (arbitrary per-position
weight `f`). -/

def rrfFold (f : Nat → ℚ) (ps : List (Nat × SearchResult)) (acc : List RrfEntry) :
    List RrfEntry :=
  ps.foldl (fun acc p => rrfBump acc (rrfKey p.2) (f p.1) p.2) acc

/-- Keys of an entry list. -/

def entriesKeys (l : List RrfEntry) : List Str := l.map (fun e => e.key)

/-- Accumulated score under a key (0 when absent — `defaultdict(float)`). -/

def entryScore : List RrfEntry → Str → ℚ
  | [], _ => 0
  | e :: t, k => if e.key = k then e.rrfScore else entryScore t k

/-- Retained first record under a key. -/

def entryFirst : List RrfEntry → Str → Option SearchResult
  | [], _ => none
  | e :: t, k => if e.key = k then some e.firstResult else entryFirst t k

/-- A result with identity `("a:b", "c")`: its join string is `"a:b:c"`. -/

def resR1 : SearchResult := ⟨str "c", str "t1", str "s1", 1, str "a:b", str "f1"⟩

/-- A result with identity `("a", "b:c")`: its join string is also
`"a:b:c"`. -/

def resR2 : SearchResult := ⟨str "b:c", str "t2", str "s2", 1, str "a", str "f2"⟩

/-! ## Theorems -/
theorem insertByDesc_perm (key : α → ℚ) (x : α) (l : List α) :
    List.Perm (insertByDesc key x l) (x :: l) := by
  induction l with
  | nil => simp [insertByDesc]
  | cons y t ih =>
    unfold insertByDesc
    by_cases h : key y ≤ key x
    · simp [h]
    · simp only [h, if_false]
      exact (ih.cons y).trans (List.Perm.swap x y t)

theorem sortByDesc_perm (key : α → ℚ) (l : List α) : List.Perm (sortByDesc key l) l := by
  induction l with
  | nil => simp [sortByDesc]
  | cons x t ih => exact (insertByDesc_perm key x (sortByDesc key t)).trans (ih.cons x)

theorem mem_sortByDesc {key : α → ℚ} {l : List α} {a : α} :
    a ∈ sortByDesc key l ↔ a ∈ l :=
  (sortByDesc_perm key l).mem_iff

theorem length_sortByDesc (key : α → ℚ) (l : List α) :
    (sortByDesc key l).length = l.length :=
  (sortByDesc_perm key l).length_eq

theorem expandMiss_eq_cons (llm : Llm) (query : Str) (cnt : Nat) (qh : Str)
    (cache : Option ExpCache) : ∃ t, (expandMiss llm query cnt qh cache).1 = query :: t := by
  unfold expandMiss
  by_cases ha : llm.available
  · simp only [ha, if_true]
    cases llm.response with
    | none => exact ⟨[], rfl⟩
    | some resp =>
      by_cases hr : resp = []
      · exact ⟨[], by simp [hr]⟩
      · refine ⟨(parseExpansions query resp).take cnt, ?_⟩
        simp [hr]
  · exact ⟨[], by simp [ha]⟩

/-- **C1**: for every input query and every expansion outcome (cache hit,
model success, model unavailable, empty model response), the sequence
returned by `expand_query` is nonempty and its first element is the original
query, unchanged. -/
theorem expandQuery_starts_with_original (H : HashFns) (llm : Llm) (query : Str)
    (count : Option Nat) (cfgCount : Nat) (cache : Option ExpCache) :
    (expandQuery H llm query count cfgCount cache).1 ≠ [] ∧
      (expandQuery H llm query count cfgCount cache).1.head? = some query := by
  have key : ∃ t, (expandQuery H llm query count cfgCount cache).1 = query :: t := by
    unfold expandQuery
    cases cache with
    | none => exact expandMiss_eq_cons ..
    | some st =>
      rcases hg : expCacheGet st (queryFingerprint H query) with ⟨r, st'⟩
      cases r with
      | none => simpa [hg] using expandMiss_eq_cons ..
      | some cached =>
        by_cases hc : cached = []
        · simpa [hg, hc] using expandMiss_eq_cons ..
        · exact ⟨cached, by simp [hg, hc]⟩
  obtain ⟨t, ht⟩ := key
  simp [ht]

theorem blendPhase_blended (candidates : List Doc) (sc : List (Nat × ℚ))
    (rr : RerankResult) (hrr : rr ∈ blendPhase candidates sc) :
    rr.blended_score =
      weightBm25 rr.original_rank * min (rr.original_score / 15) 1 +
        (1 - weightBm25 rr.original_rank) * (rr.rerank_score / 10) := by
  unfold blendPhase at hrr
  obtain ⟨p, hp, rfl⟩ := List.mem_map.1 hrr
  rfl

theorem mem_rerank_mem_blendPhase (H : HashFns) (llm : Llm) (query : Str)
    (results : List Doc) (topk : Option Nat) (cfgTopk : Nat)
    (cache : Option RerankCacheSt) (rr : RerankResult)
    (hrr : rr ∈ (rerankResults H llm query results topk cfgTopk cache).1) :
    ∃ sc, rr ∈ blendPhase (results.take (effOr topk cfgTopk)) sc := by
  unfold rerankResults at hrr
  by_cases hc : results.take (effOr topk cfgTopk) = []
  · simp [hc] at hrr
  · simp only [hc, if_neg, if_false] at hrr
    refine ⟨(rerankLlmPhase H llm (queryFingerprint H query) (results.take (effOr topk cfgTopk))
      (rerankCachePhase H cache (queryFingerprint H query)
        (results.take (effOr topk cfgTopk))).2.2
      (rerankCachePhase H cache (queryFingerprint H query)
        (results.take (effOr topk cfgTopk))).2.1 cache).1, ?_⟩
    exact mem_sortByDesc.1 hrr

/-- **C2**: every record emitted by the rerank/blend stage satisfies the
claimed blend equation: with `p` its 1-based pre-rerank position, `s` its
lexical score and `r` its relevance score, the blended score is
`w * min(s/15, 1) + (1-w) * (r/10)` where `w = 0.75` for `p ≤ 3`,
`w = 0.60` for `4 ≤ p ≤ 10` and `w = 0.40` for `p ≥ 11` (the equation holds
for every emitted record, in particular for those with `s ≥ 0` and
`r ∈ [0, 10]` as in the claim). -/
theorem rerank_blend_weights (H : HashFns) (llm : Llm) (query : Str)
    (results : List Doc) (topk : Option Nat) (cfgTopk : Nat)
    (cache : Option RerankCacheSt) (rr : RerankResult)
    (hrr : rr ∈ (rerankResults H llm query results topk cfgTopk cache).1) :
    rr.blended_score =
      (if rr.original_rank ≤ 3 then (3 : ℚ) / 4
        else if rr.original_rank ≤ 10 then 3 / 5 else 2 / 5) *
          min (rr.original_score / 15) 1 +
        (1 - (if rr.original_rank ≤ 3 then (3 : ℚ) / 4
          else if rr.original_rank ≤ 10 then 3 / 5 else 2 / 5)) *
          (rr.rerank_score / 10) := by
  obtain ⟨sc, hm⟩ := mem_rerank_mem_blendPhase H llm query results topk cfgTopk cache rr hrr
  simpa [weightBm25] using blendPhase_blended _ sc rr hm

/-- Full evaluation of the end-to-end rerank example run. -/
theorem rerank3_run :
    (rerankResults idHash llm942 (str "coffee brewing") [docA, docB, docC] none 20 none).1 =
      [rrA, rrB, rrC] := by
  have h1 : rerankCachePhase idHash none
      (queryFingerprint idHash (str "coffee brewing")) [docA, docB, docC] =
      (0, [], [0, 1, 2]) := by decide
  have h2 : rerankLlmPhase idHash llm942
      (queryFingerprint idHash (str "coffee brewing")) [docA, docB, docC] [0, 1, 2] [] none =
      ([(0, 9), (1, 4), (2, 2)], none) := by decide
  have h3 : effOr none 20 = 20 := by decide
  have h4 : ([docA, docB, docC].take 20) = [docA, docB, docC] := by decide
  simp only [rerankResults, h3, h4, h1, h2]
  norm_num [blendPhase, scoresGet, weightBm25, docA, docB, docC, str, List.enum,
    List.enumFrom, sortByDesc, insertByDesc]
  simp [rrA, rrB, rrC, docA, docB, docC, str]

/-- **C3 (counterexample)**: at the claimed input — candidates A(12.0),
B(8.0), C(3.0) at pre-rerank ranks 1, 2, 3 and model relevance scores 9, 4, 2
— the blended scores are not `[0.825, 0.48, 0.2]` as the claim states: B's
pre-rerank rank is 2, which falls in the `rank ≤ 3` band (lexical weight
0.75, not 0.60), so B's blended score is `0.75*(8/15) + 0.25*0.4 = 0.5`,
not 0.48. -/
theorem c3_counterexample :
    (rerankResults idHash llm942 (str "coffee brewing") [docA, docB, docC] none 20
        none).1.map (fun r => r.blended_score) ≠ [33 / 40, 12 / 25, 1 / 5] := by
  rw [rerank3_run]
  norm_num [rrA, rrB, rrC]

/-- **C3 (amended)**: for the concrete input where candidates A(12.0),
B(8.0), C(3.0) occupy pre-rerank ranks 1, 2, 3 and the model assigns
relevance scores 9, 4, 2, the blended scores are A = 0.825, B = 0.5,
C = 0.2 (ranks 2 and 3 also fall in the 0.75 lexical-weight band), and the
final order is A, B, C. -/
theorem c3_blended_scores :
    (rerankResults idHash llm942 (str "coffee brewing") [docA, docB, docC] none 20
        none).1.map (fun r => (r.path, r.blended_score)) =
      [(str "A", 33 / 40), (str "B", 1 / 2), (str "C", 1 / 5)] := by
  rw [rerank3_run]
  simp [rrA, rrB, rrC, str]

/-- Witness for `rerank_blend_weights`: the record for candidate A of the
concrete end-to-end run is in the rerank output and satisfies the blend
equation there. -/
theorem rerank_blend_weights_witness :
    rrA.blended_score =
      (if rrA.original_rank ≤ 3 then (3 : ℚ) / 4
        else if rrA.original_rank ≤ 10 then 3 / 5 else 2 / 5) *
          min (rrA.original_score / 15) 1 +
        (1 - (if rrA.original_rank ≤ 3 then (3 : ℚ) / 4
          else if rrA.original_rank ≤ 10 then 3 / 5 else 2 / 5)) *
          (rrA.rerank_score / 10) :=
  rerank_blend_weights idHash llm942 (str "coffee brewing") [docA, docB, docC] none 20 none
    rrA (by rw [rerank3_run]; exact List.mem_cons_self _ _)

theorem getLlmScores_of_fails {llm : Llm} (h : llmFails llm) (n : Nat) :
    getLlmScores llm n = none := by
  unfold getLlmScores
  rcases h with h | h | h
  · simp [h]
  · cases ha : llm.available <;> simp [h]
  · cases ha : llm.available <;> simp [h]

theorem rerankLlmPhase_of_fails (H : HashFns) {llm : Llm} (qh : Str)
    (cand : List Doc) (unc : List Nat) (sc : List (Nat × ℚ))
    (cache : Option RerankCacheSt) (h : llmFails llm) :
    rerankLlmPhase H llm qh cand unc sc cache =
      (if unc = [] then sc else rerankNeutral unc sc, cache) := by
  unfold rerankLlmPhase
  by_cases hu : unc = []
  · simp [hu]
  · simp [hu, getLlmScores_of_fails h]

theorem scoresGet_scoresSet_self (sc : List (Nat × ℚ)) (i : Nat) (v : ℚ) :
    scoresGet (scoresSet sc i v) i = some v := by
  induction sc with
  | nil => simp [scoresSet, scoresGet]
  | cons p t ih =>
    cases p with
    | mk j w =>
      by_cases h : j = i
      · simp [scoresSet, scoresGet, h]
      · simp [scoresSet, scoresGet, h, ih]

theorem scoresGet_scoresSet_ne (sc : List (Nat × ℚ)) {i j : Nat} (v : ℚ)
    (h : j ≠ i) : scoresGet (scoresSet sc j v) i = scoresGet sc i := by
  induction sc with
  | nil => simp [scoresSet, scoresGet, h]
  | cons p t ih =>
    cases p with
    | mk k w =>
      by_cases hk : k = j
      · simp [scoresSet, scoresGet, hk, h]
      · by_cases hki : k = i
        · subst hki
          simp [scoresSet, scoresGet, hk]
        · simp [scoresSet, scoresGet, hk, hki, ih]

theorem scoresGet_rerankNeutral (unc : List Nat) (sc : List (Nat × ℚ)) (i : Nat) :
    scoresGet (rerankNeutral unc sc) i = if i ∈ unc then some 5 else scoresGet sc i := by
  induction unc generalizing sc with
  | nil => simp [rerankNeutral]
  | cons j t ih =>
    have step : rerankNeutral (j :: t) sc = rerankNeutral t (scoresSet sc j 5) := rfl
    rw [step, ih]
    by_cases hij : i ∈ t
    · simp [hij]
    · by_cases hji : j = i
      · simp [hij, hji, scoresGet_scoresSet_self]
      · simp [hij, hji, List.mem_cons, Ne.symm hji, scoresGet_scoresSet_ne _ _ hji]

theorem cacheProbeStep_eq (H : HashFns) (cache : Option RerankCacheSt) (qh : Str)
    (st : Nat × List (Nat × ℚ) × List Nat) (p : Nat × Doc) :
    cacheProbeStep H cache qh st p =
      match rerankProbe H cache qh p.2 with
      | some v => (st.1 + 1, scoresSet st.2.1 p.1 v, st.2.2)
      | none => (st.1, st.2.1, st.2.2 ++ [p.1]) := by
  cases cache with
  | none => rfl
  | some c => rfl

theorem rerankCachePhase_foldl_get_none (H : HashFns) (cache : Option RerankCacheSt)
    (qh : Str) (ps : List (Nat × Doc)) (st : Nat × List (Nat × ℚ) × List Nat) (i : Nat)
    (h0 : scoresGet st.2.1 i = none)
    (hp : ∀ d, (i, d) ∈ ps → rerankProbe H cache qh d = none) :
    scoresGet (ps.foldl (cacheProbeStep H cache qh) st).2.1 i = none := by
  induction ps generalizing st with
  | nil => exact h0
  | cons p t ih =>
    rw [List.foldl_cons, cacheProbeStep_eq]
    rcases hg : rerankProbe H cache qh p.2 with _ | v
    · exact ih _ h0 (fun d hd => hp d (List.mem_cons_of_mem _ hd))
    · have hji : p.1 ≠ i := by
        intro hji
        have := hp p.2 (by rw [← hji]; exact List.mem_cons_self _ _)
        rw [hg] at this
        exact Option.noConfusion this
      refine ih _ ?_ (fun d hd => hp d (List.mem_cons_of_mem _ hd))
      simpa [scoresGet_scoresSet_ne _ _ hji] using h0

theorem rerankCachePhase_get_none (H : HashFns) (cache : Option RerankCacheSt)
    (qh : Str) (candidates : List Doc) (i : Nat) (hi : i < candidates.length)
    (hp : rerankProbe H cache qh (candidates.get ⟨i, hi⟩) = none) :
    scoresGet (rerankCachePhase H cache qh candidates).2.1 i = none := by
  unfold rerankCachePhase
  refine rerankCachePhase_foldl_get_none H cache qh _ _ i (by simp [scoresGet]) ?_
  intro d hd
  have : candidates.get? i = some d := by
    have := List.mem_enum_iff_get?.1 hd
    simpa using this
  rw [List.get?_eq_get hi] at this
  cases this
  exact hp

theorem blendPhase_exists (candidates : List Doc) (sc : List (Nat × ℚ)) (i : Nat)
    (hi : i < candidates.length) :
    ∃ rr ∈ blendPhase candidates sc, rr.original_rank = i + 1 ∧
      rr.rerank_score = (scoresGet sc i).getD 5 := by
  have hp : (i, candidates.get ⟨i, hi⟩) ∈ candidates.enum :=
    List.mem_enum_iff_get?.2 (by simpa using List.get?_eq_get hi)
  unfold blendPhase
  exact ⟨_, List.mem_map_of_mem _ hp, rfl, rfl⟩

/-- **C5**: if the external model call fails entirely (unavailable, `None`,
or empty response), the rerank stage still returns a list of the same size as
its topk-truncated input, and every candidate whose score was not found in
the cache appears in the output with exactly the neutral relevance score 5.0
(no exception is modelled because the code path is total: failure is
non-fatal). -/
theorem rerank_neutral_fallback (H : HashFns) (llm : Llm) (query : Str)
    (results : List Doc) (topk : Option Nat) (cfgTopk : Nat)
    (cache : Option RerankCacheSt) (hfail : llmFails llm) :
    (rerankResults H llm query results topk cfgTopk cache).1.length =
        (results.take (effOr topk cfgTopk)).length ∧
      ∀ i, (hi : i < (results.take (effOr topk cfgTopk)).length) →
        rerankProbe H cache (queryFingerprint H query)
            ((results.take (effOr topk cfgTopk)).get ⟨i, hi⟩) = none →
        ∃ rr ∈ (rerankResults H llm query results topk cfgTopk cache).1,
          rr.original_rank = i + 1 ∧ rr.rerank_score = 5 := by
  set candidates := results.take (effOr topk cfgTopk) with hcand
  by_cases hc : candidates = []
  · constructor
    · simp [rerankResults, ← hcand, hc]
    · intro i hi
      rw [hc] at hi
      exact absurd hi (by simp)
  · have hout : (rerankResults H llm query results topk cfgTopk cache).1 =
        sortByDesc (fun r => r.blended_score)
          (blendPhase candidates
            (rerankLlmPhase H llm (queryFingerprint H query) candidates
              (rerankCachePhase H cache (queryFingerprint H query) candidates).2.2
              (rerankCachePhase H cache (queryFingerprint H query) candidates).2.1
              cache).1) := by
      simp only [rerankResults, ← hcand, hc, if_neg, if_false]
    set qh := queryFingerprint H query with hqh
    set sc := (rerankCachePhase H cache qh candidates).2.1 with hsc
    set unc := (rerankCachePhase H cache qh candidates).2.2 with hunc
    have hsc' : (rerankLlmPhase H llm qh candidates unc sc cache).1 =
        if unc = [] then sc else rerankNeutral unc sc := by
      rw [rerankLlmPhase_of_fails H qh candidates unc sc cache hfail]
    constructor
    · rw [hout, length_sortByDesc]
      simp [blendPhase]
    · intro i hi hprobe
      have hnone : scoresGet sc i = none :=
        rerankCachePhase_get_none H cache qh candidates i hi hprobe
      have hval : (scoresGet (rerankLlmPhase H llm qh candidates unc sc cache).1 i).getD 5
          = 5 := by
        rw [hsc']
        by_cases hu : unc = []
        · simp [hu, hnone]
        · simp only [if_neg hu]
          rw [scoresGet_rerankNeutral]
          by_cases hiu : i ∈ unc
          · simp [hiu]
          · simp [hiu, hnone]
      obtain ⟨rr, hmem, hrank, hscore⟩ := blendPhase_exists candidates
        (rerankLlmPhase H llm qh candidates unc sc cache).1 i hi
      refine ⟨rr, ?_, hrank, ?_⟩
      · rw [hout, mem_sortByDesc]
        exact hmem
      · rw [hscore]
        exact hval

/-- Witness for `rerank_neutral_fallback`: one candidate, no cache,
unavailable model. -/
theorem rerank_neutral_fallback_witness :
    (rerankResults idHash ⟨false, none⟩ (str "q") [docA] (some 5) 20 none).1.length =
        ([docA].take (effOr (some 5) 20)).length ∧
      ∀ i, (hi : i < ([docA].take (effOr (some 5) 20)).length) →
        rerankProbe idHash none (queryFingerprint idHash (str "q"))
            (([docA].take (effOr (some 5) 20)).get ⟨i, hi⟩) = none →
        ∃ rr ∈ (rerankResults idHash ⟨false, none⟩ (str "q") [docA] (some 5) 20 none).1,
          rr.original_rank = i + 1 ∧ rr.rerank_score = 5 :=
  rerank_neutral_fallback idHash ⟨false, none⟩ (str "q") [docA] (some 5) 20 none (Or.inl rfl)

/-- **C6 (counterexample)**: on the single response line `"8 abc"` with one
document, the code discards the whole line — scanning right-to-left,
`float("abc")` raises and the `try` abandons the line — and pads with the
neutral 5.0, while the claimed "last numeric token" rule extracts 8. -/
theorem c6_counterexample :
    llmParseScores (str "8 abc") 1 ≠ c6ParseScores (str "8 abc") 1 ∧
      llmParseScores (str "8 abc") 1 = [5] ∧ c6ParseScores (str "8 abc") 1 = [8] := by
  refine ⟨?_, by decide, by decide⟩
  decide

theorem findScoreRev_eq_amended (ts : List Str) :
    findScoreRev ts =
      ((ts.takeWhile (fun t => decide (pyFloat t ≠ PyFloat.err))).filterMap
        (fun t => match pyFloat t with | PyFloat.num q => some q | _ => none)).find?
        (fun q => decide (0 ≤ q ∧ q ≤ 10)) := by
  induction ts with
  | nil => rfl
  | cons t rest ih =>
    unfold findScoreRev
    cases hf : pyFloat t with
    | err => simp [List.takeWhile_cons, hf]
    | special => simp [List.takeWhile_cons, hf, ih]
    | num q =>
      by_cases hq : 0 ≤ q ∧ q ≤ 10
      · simp [List.takeWhile_cons, hf, List.find?, hq]
      · simp [List.takeWhile_cons, hf, List.find?, hq, ih]

/-- **C6 (amended)**: for every model response and document count, the score
extraction of `_get_llm_scores` scans each line's tokens right-to-left,
aborts the line at the first token `float` rejects, skips numeric values
outside `[0, 10]`, takes the first in-range value, discards lines yielding
nothing, and pads with the neutral 5.0 so that exactly one score per document
is returned. -/
theorem llmParseScores_amended (resp : Str) (nDocs : Nat) :
    llmParseScores resp nDocs = llmParseScoresAmended resp nDocs := by
  have hfun : rerankLineScore = amendedLineScore := by
    funext line
    unfold rerankLineScore amendedLineScore
    rw [findScoreRev_eq_amended]
  unfold llmParseScores llmParseScoresAmended rerankRawScores
  rw [hfun]

/-- **C7 (counterexample)**: for query `"zzz"` and response
`"ok\n• coffee beans maker"` (desired count 5), the code returns only
`["• coffee beans maker"]`: the line `"ok"` is discarded by the undocumented
`len(line) > 2` filter, and the bullet `•` is not stripped (the marker set in
the source is the double-encoded `"-â€¢*"`, which does not contain `•`).
The claimed rule instead yields `["ok", "coffee beans maker"]`. -/
theorem c7_counterexample :
    (parseExpansions (str "zzz") (str "ok\n• coffee beans maker")).take 5 ≠
        c7Parse (str "zzz") (str "ok\n• coffee beans maker") 5 ∧
      (parseExpansions (str "zzz") (str "ok\n• coffee beans maker")).take 5 =
        [str "• coffee beans maker"] ∧
      c7Parse (str "zzz") (str "ok\n• coffee beans maker") 5 =
        [str "ok", str "coffee beans maker"] := by
  refine ⟨?_, by decide, by decide⟩
  decide

theorem expandLineKeep_eq (query l : Str) :
    expandLineKeep query l =
      if 2 < (pyStrip l).length then
        (if stripMarker (pyStrip l) ≠ [] ∧
            pyLower (stripMarker (pyStrip l)) ≠ pyLower query
          then some (stripMarker (pyStrip l)) else none)
      else none := by
  unfold expandLineKeep stripMarker
  by_cases h2 : 2 < (pyStrip l).length
  · have hne : pyStrip l ≠ [] := by
      intro h
      rw [h] at h2
      exact absurd h2 (by simp)
    simp [h2, hne]
  · simp [h2]

/-- **C7 (amended)**: the expansion parser processes the response line by
line; it discards any line whose trimmed length is at most 2, then strips a
leading single digit followed by `.`/`)`/`:` or one leading character of the
source's five-character marker set (`'-'`, `'â'`, `'€'`, `'¢'`, `'*'` — the
intended bullet `•` is double-encoded in the source and is not stripped), and
keeps the result unless it is empty or case-insensitively equal to the
original query; `expand_query` then truncates to the desired count. -/
theorem parseExpansions_amended (query resp : Str) :
    parseExpansions query resp = parseExpansionsAmended query resp := by
  unfold parseExpansions parseExpansionsAmended
  induction pySplitNl (pyStrip resp) with
  | nil => rfl
  | cons l ls ih =>
    rw [List.filterMap_cons, expandLineKeep_eq]
    by_cases h2 : 2 < (pyStrip l).length
    · by_cases hp : stripMarker (pyStrip l) ≠ [] ∧
          pyLower (stripMarker (pyStrip l)) ≠ pyLower query
      · simp [h2, hp, ih]
      · simp [h2, hp, ih]
    · simp [h2, ih]

theorem expCacheGet_fst (st : ExpCache) (qh : Str) :
    (expCacheGet st qh).1 = expCacheLookup st qh := by
  induction st with
  | nil => rfl
  | cons p t ih =>
    cases p with
    | mk k e =>
      by_cases hk : k = qh
      · simp [expCacheGet, expCacheLookup, hk]
      · simp [expCacheGet, expCacheLookup, hk, ih]

theorem expCacheGet_lookup_snd (st : ExpCache) (qh k : Str) :
    expCacheLookup (expCacheGet st qh).2 k = expCacheLookup st k := by
  induction st with
  | nil => rfl
  | cons p t ih =>
    cases p with
    | mk k' e =>
      by_cases hk : k' = qh
      · simp [expCacheGet, expCacheLookup, hk]
      · by_cases hkk : k' = k
        · subst hkk
          simp [expCacheGet, expCacheLookup, hk]
        · simp [expCacheGet, expCacheLookup, hk, hkk, ih]

theorem expandQuery_hit (H : HashFns) (llm : Llm) (query : Str) (count : Option Nat)
    (cfgCount : Nat) (st : ExpCache) (alts : List Str)
    (hpop : expCacheLookup st (queryFingerprint H query) = some alts) (hne : alts ≠ []) :
    expandQuery H llm query count cfgCount (some st) =
      (query :: alts, true, some (expCacheGet st (queryFingerprint H query)).2) := by
  rcases hG : expCacheGet st (queryFingerprint H query) with ⟨r, st₁⟩
  have hr : r = some alts := by
    have := expCacheGet_fst st (queryFingerprint H query)
    rw [hG] at this
    simpa [hpop] using this
  subst hr
  simp [expandQuery, hG, hne]

/-- **C10**: on an expansion cache hit, `expand_query` ignores the
`count` argument: it returns the original query followed by all cached
alternatives, so a cache populated by an earlier call with a larger count can
yield more than `count` alternatives. -/
theorem expansion_hit_ignores_count (H : HashFns) (llm : Llm) (query : Str)
    (count : Option Nat) (cfgCount : Nat) (st : ExpCache) (alts : List Str)
    (hpop : expCacheLookup st (queryFingerprint H query) = some alts) (hne : alts ≠ []) :
    (expandQuery H llm query count cfgCount (some st)).1 = query :: alts := by
  rw [expandQuery_hit H llm query count cfgCount st alts hpop hne]

/-- Witness for `expansion_hit_ignores_count`: with desired count 1, the hit
returns all three cached alternatives (more than the count). -/
theorem expansion_hit_ignores_count_witness :
    (expandQuery idHash ⟨false, none⟩ (str "q") (some 1) 5 (some expSt3)).1 =
        str "q" :: [str "a1", str "a2", str "a3"] ∧
      1 < [str "a1", str "a2", str "a3"].length :=
  ⟨expansion_hit_ignores_count idHash ⟨false, none⟩ (str "q") (some 1) 5 expSt3
    [str "a1", str "a2", str "a3"] (by decide) (by decide), by decide⟩

/-- **C8**: calling the expansion stage twice with the identical query string
against a cache populated for that query's fingerprint (an entry with a
nonempty alternatives list, which is the only kind the stage itself writes)
returns identical alternative lists on both calls, and the second call
reports `cacheHit = true`. -/
theorem expansion_cache_idempotent (H : HashFns) (llm llm' : Llm) (query : Str)
    (count count' : Option Nat) (cfgCount : Nat) (st : ExpCache) (alts : List Str)
    (hpop : expCacheLookup st (queryFingerprint H query) = some alts) (hne : alts ≠ []) :
    ∃ st₁,
      expandQuery H llm query count cfgCount (some st) = (query :: alts, true, some st₁) ∧
        (expandQuery H llm' query count' cfgCount (some st₁)).1 = query :: alts ∧
        (expandQuery H llm' query count' cfgCount (some st₁)).2.1 = true := by
  refine ⟨(expCacheGet st (queryFingerprint H query)).2,
    expandQuery_hit H llm query count cfgCount st alts hpop hne, ?_, ?_⟩ <;>
  · rw [expandQuery_hit H llm' query count' cfgCount _ alts
      (by rw [expCacheGet_lookup_snd]; exact hpop) hne]

/-- Witness for `expansion_cache_idempotent` on the concrete populated
cache. -/
theorem expansion_cache_idempotent_witness :
    ∃ st₁,
      expandQuery idHash ⟨false, none⟩ (str "q") (some 1) 5 (some expSt3) =
          (str "q" :: [str "a1", str "a2", str "a3"], true, some st₁) ∧
        (expandQuery idHash ⟨true, some (str "x1\nx2")⟩ (str "q") (some 2) 5 (some st₁)).1 =
          str "q" :: [str "a1", str "a2", str "a3"] ∧
        (expandQuery idHash ⟨true, some (str "x1\nx2")⟩ (str "q") (some 2) 5 (some st₁)).2.1 =
          true :=
  expansion_cache_idempotent idHash ⟨false, none⟩ ⟨true, some (str "x1\nx2")⟩ (str "q")
    (some 1) (some 2) 5 expSt3 [str "a1", str "a2", str "a3"] (by decide) (by decide)

theorem rerankCacheGet_set (st : RerankCacheSt) (k k' : Str) (v : ℚ) :
    rerankCacheGet (rerankCacheSet st k v) k' =
      if k = k' then some v else rerankCacheGet st k' := by
  induction st with
  | nil => rfl
  | cons p t ih =>
    cases p with
    | mk k0 w =>
      by_cases h0 : k0 = k
      · subst h0
        by_cases hk : k0 = k'
        · simp [rerankCacheSet, rerankCacheGet, hk]
        · simp [rerankCacheSet, rerankCacheGet, hk]
      · by_cases hk : k0 = k'
        · subst hk
          simp [rerankCacheSet, rerankCacheGet, h0, Ne.symm h0]
        · simp [rerankCacheSet, rerankCacheGet, h0, hk, ih]

theorem rerankLlmPhase_success (H : HashFns) (llm : Llm) (qh : Str)
    (candidates : List Doc) (unc : List Nat) (sc : List (Nat × ℚ))
    (cache : Option RerankCacheSt) (ss : List ℚ) (hu : unc ≠ [])
    (hs : getLlmScores llm unc.length = some ss) (hne : ss ≠ []) :
    rerankLlmPhase H llm qh candidates unc sc cache =
      (unc.zip ss).foldl (llmWriteStep H qh candidates) (sc, cache) := by
  unfold rerankLlmPhase
  rw [if_pos hu, hs]
  simp only [ne_eq, hne, not_false_iff, if_true]
  rfl

theorem cacheFold_snd (H : HashFns) (qh : Str) (candidates : List Doc)
    (P : List (Nat × ℚ)) (sc : List (Nat × ℚ)) (st : RerankCacheSt) :
    (P.foldl (llmWriteStep H qh candidates) (sc, some st)).2 =
      some (P.foldl (fun c p => rerankCacheSet c (candKey H qh candidates p.1) p.2) st) := by
  induction P generalizing sc st with
  | nil => rfl
  | cons p t ih => exact ih _ _

theorem cacheFold_untouched (H : HashFns) (qh : Str) (candidates : List Doc)
    (P : List (Nat × ℚ)) (st : RerankCacheSt) (k : Str)
    (hk : ∀ p ∈ P, candKey H qh candidates p.1 ≠ k) :
    rerankCacheGet
        (P.foldl (fun c p => rerankCacheSet c (candKey H qh candidates p.1) p.2) st) k =
      rerankCacheGet st k := by
  induction P generalizing st with
  | nil => rfl
  | cons p t ih =>
    rw [List.foldl_cons, ih _ (fun q hq => hk q (List.mem_cons_of_mem _ hq)),
      rerankCacheGet_set]
    exact if_neg (hk p (List.mem_cons_self _ _))

theorem cacheFold_get (H : HashFns) (qh : Str) (candidates : List Doc)
    (P : List (Nat × ℚ)) (st : RerankCacheSt)
    (hnodup : (P.map (fun p => candKey H qh candidates p.1)).Nodup) :
    ∀ p ∈ P,
      rerankCacheGet
          (P.foldl (fun c q => rerankCacheSet c (candKey H qh candidates q.1) q.2) st)
          (candKey H qh candidates p.1) =
        some p.2 := by
  induction P generalizing st with
  | nil => intro p hp; cases hp
  | cons p0 t ih =>
    intro p hp
    rw [List.map_cons, List.nodup_cons] at hnodup
    rcases List.mem_cons.1 hp with rfl | hpt
    · rw [List.foldl_cons,
        cacheFold_untouched H qh candidates t _ _
          (fun q hq hkeq => hnodup.1 (by rw [← hkeq]; exact List.mem_map_of_mem _ hq)),
        rerankCacheGet_set, if_pos rfl]
    · exact ih _ hnodup.2 p hpt

/-- **C9 (counterexample)**: one candidate, an (empty) cache present, model
unavailable.  The neutral fallback score 5.0 is freshly computed and used in
the output, but the final cache state is unchanged — still empty — so the
claimed write under the compound key never happened. -/
theorem c9_counterexample :
    (rerankResults idHash ⟨false, none⟩ (str "q") [docA] (some 5) 20 (some [])).2.2 =
        some [] ∧
      (rerankResults idHash ⟨false, none⟩ (str "q") [docA] (some 5) 20 (some [])).1.map
          (fun r => r.rerank_score) = [5] ∧
      rerankCacheGet []
        (rerankCacheKey idHash (queryFingerprint idHash (str "q"))
          (docFingerprint idHash docA)) = none := by
  refine ⟨by decide, by decide, by decide⟩

/-- **C9 (amended)**: (i) when the model call fails entirely, the freshly
assigned neutral 5.0 scores are *not* written back: the cache state after
`rerank_results` equals the one before; (ii) when the model call succeeds,
every score of the batch (in input order, padded 5.0s included) is written to
the cache under the compound key `hash(queryFingerprint, docFingerprint)` of
its candidate — provided those compound keys do not collide — and entries
under other keys are untouched; (iii) a cache `set` overwrites any prior
entry for its key unconditionally. -/
theorem rerank_cache_writeback :
    (∀ (H : HashFns) (llm : Llm) (query : Str) (results : List Doc)
      (topk : Option Nat) (cfgTopk : Nat) (cache : Option RerankCacheSt),
      llmFails llm →
        (rerankResults H llm query results topk cfgTopk cache).2.2 = cache) ∧
    (∀ (H : HashFns) (llm : Llm) (qh : Str) (candidates : List Doc) (unc : List Nat)
      (sc : List (Nat × ℚ)) (st : RerankCacheSt) (ss : List ℚ),
      unc ≠ [] → getLlmScores llm unc.length = some ss → ss ≠ [] →
      ((unc.zip ss).map (fun p => candKey H qh candidates p.1)).Nodup →
      ∃ st', (rerankLlmPhase H llm qh candidates unc sc (some st)).2 = some st' ∧
        (∀ p ∈ unc.zip ss, rerankCacheGet st' (candKey H qh candidates p.1) = some p.2) ∧
        (∀ k, (∀ p ∈ unc.zip ss, candKey H qh candidates p.1 ≠ k) →
          rerankCacheGet st' k = rerankCacheGet st k)) ∧
    (∀ (st : RerankCacheSt) (k : Str) (v : ℚ),
      rerankCacheGet (rerankCacheSet st k v) k = some v) := by
  refine ⟨?_, ?_, ?_⟩
  · intro H llm query results topk cfgTopk cache hfail
    unfold rerankResults
    by_cases hc : results.take (effOr topk cfgTopk) = []
    · simp [hc]
    · simp only [hc, if_neg, if_false]
      rw [rerankLlmPhase_of_fails H _ _ _ _ _ hfail]
  · intro H llm qh candidates unc sc st ss hu hs hne hnodup
    rw [rerankLlmPhase_success H llm qh candidates unc sc (some st) ss hu hs hne,
      cacheFold_snd]
    refine ⟨_, rfl, cacheFold_get H qh candidates _ st hnodup, ?_⟩
    intro k hk
    exact cacheFold_untouched H qh candidates _ st k hk
  · intro st k v
    rw [rerankCacheGet_set, if_pos rfl]

/-- Witness for `rerank_cache_writeback` at concrete inputs: (i) failure run
leaves the empty cache empty; (ii) a successful one-candidate run writes
score 9 under the compound key; (iii) a concrete overwrite. -/
theorem rerank_cache_writeback_witness :
    (rerankResults idHash ⟨false, none⟩ (str "q") [docA] (some 5) 20 (some [])).2.2 =
        some [] ∧
      (∃ st', (rerankLlmPhase idHash ⟨true, some (str "9")⟩ (str "q") [docA] [0] []
            (some [])).2 = some st' ∧
          (∀ p ∈ [0].zip [(9 : ℚ)],
            rerankCacheGet st' (candKey idHash (str "q") [docA] p.1) = some p.2) ∧
          (∀ k, (∀ p ∈ [0].zip [(9 : ℚ)], candKey idHash (str "q") [docA] p.1 ≠ k) →
            rerankCacheGet st' k = rerankCacheGet [] k)) ∧
      rerankCacheGet (rerankCacheSet [] (str "k") 3) (str "k") = some 3 :=
  ⟨rerank_cache_writeback.1 idHash ⟨false, none⟩ (str "q") [docA] (some 5) 20 (some [])
      (Or.inl rfl),
    rerank_cache_writeback.2.1 idHash ⟨true, some (str "9")⟩ (str "q") [docA] [0] [] []
      [9] (by decide) (by decide) (by decide) (by decide),
    rerank_cache_writeback.2.2 [] (str "k") 3⟩

theorem rrfAccum_eq_rrfFold (n q : Nat) (results : List SearchResult) :
    rrfAccum n q results =
      rrfFold (fun i => 1 / (60 + (approxRank n q i : ℚ))) results.enum [] := rfl

theorem entriesKeys_rrfBump (l : List RrfEntry) (k : Str) (v : ℚ) (r : SearchResult) :
    entriesKeys (rrfBump l k v r) =
      if k ∈ entriesKeys l then entriesKeys l else entriesKeys l ++ [k] := by
  induction l with
  | nil => simp [rrfBump, entriesKeys]
  | cons e t ih =>
    by_cases he : e.key = k
    · simp [rrfBump, entriesKeys, he]
    · simp only [rrfBump, he, if_false, entriesKeys, List.map_cons, List.mem_cons]
      rw [entriesKeys] at ih
      by_cases hk : k ∈ t.map (fun e => e.key)
      · simp [entriesKeys, hk, ih, Ne.symm he]
      · simp [entriesKeys, hk, ih, Ne.symm he]

theorem entryScore_rrfBump (l : List RrfEntry) (k : Str) (v : ℚ) (r : SearchResult)
    (k' : Str) :
    entryScore (rrfBump l k v r) k' = entryScore l k' + (if k = k' then v else 0) := by
  induction l with
  | nil =>
    by_cases hk : k = k'
    · simp [rrfBump, entryScore, hk]
    · simp [rrfBump, entryScore, hk]
  | cons e t ih =>
    by_cases he : e.key = k
    · subst he
      by_cases hk : e.key = k'
      · simp [rrfBump, entryScore, hk, add_comm]
      · simp [rrfBump, entryScore, hk]
    · by_cases hk : e.key = k'
      · have h1 : ¬ k = k' := fun h => he (h ▸ hk)
        have h2 : ¬ k' = k := fun h => h1 h.symm
        simp [rrfBump, entryScore, he, hk, h1, h2]
      · simp [rrfBump, entryScore, he, hk, ih]

theorem entryFirst_rrfBump (l : List RrfEntry) (k : Str) (v : ℚ) (r : SearchResult)
    (k' : Str) :
    entryFirst (rrfBump l k v r) k' =
      match entryFirst l k' with
      | some x => some x
      | none => if k = k' then some r else none := by
  induction l with
  | nil =>
    by_cases hk : k = k'
    · simp [rrfBump, entryFirst, hk]
    · simp [rrfBump, entryFirst, hk]
  | cons e t ih =>
    by_cases he : e.key = k
    · subst he
      by_cases hk : e.key = k'
      · simp [rrfBump, entryFirst, hk]
      · simp only [rrfBump, if_pos rfl, entryFirst, hk, if_false]
        cases entryFirst t k' <;> rfl
    · by_cases hk : e.key = k'
      · subst hk
        simp [rrfBump, entryFirst, he]
      · simp [rrfBump, entryFirst, he, hk, ih]

theorem rrfFold_cons (f : Nat → ℚ) (p : Nat × SearchResult)
    (t : List (Nat × SearchResult)) (acc : List RrfEntry) :
    rrfFold f (p :: t) acc = rrfFold f t (rrfBump acc (rrfKey p.2) (f p.1) p.2) := rfl

theorem entriesKeys_rrfFold (f : Nat → ℚ) (ps : List (Nat × SearchResult))
    (acc : List RrfEntry) :
    entriesKeys (rrfFold f ps acc) =
      (ps.map (fun p => rrfKey p.2)).foldl
        (fun a k => if k ∈ a then a else a ++ [k]) (entriesKeys acc) := by
  induction ps generalizing acc with
  | nil => rfl
  | cons p t ih =>
    rw [rrfFold_cons, ih, entriesKeys_rrfBump, List.map_cons, List.foldl_cons]

theorem foldl_insertKey_eq (ks : List Str) (acc : List Str) :
    ks.foldl (fun a k => if k ∈ a then a else a ++ [k]) acc =
      acc ++ (firstSeen ks).filter (fun k => decide (k ∉ acc)) := by
  induction ks generalizing acc with
  | nil => simp [firstSeen]
  | cons k t ih =>
    rw [List.foldl_cons, firstSeen]
    by_cases hk : k ∈ acc
    · rw [if_pos hk, ih]
      congr 1
      rw [List.filter_cons]
      simp only [hk, not_true_eq_false, decide_False, Bool.false_eq_true, if_false,
        List.filter_filter]
      apply List.filter_congr
      intro x hx
      by_cases hxa : x ∈ acc
      · simp [hxa]
      · have hxk : x ≠ k := fun h => hxa (h ▸ hk)
        simp [hxa, hxk]
    · rw [if_neg hk, ih]
      have hfil : (firstSeen t).filter (fun x => decide (x ∉ acc ++ [k])) =
          ((firstSeen t).filter (fun k' => decide (k' ≠ k))).filter
            (fun x => decide (x ∉ acc)) := by
        rw [List.filter_filter]
        apply List.filter_congr
        intro x hx
        by_cases hxk : x = k
        · simp [hxk]
        · by_cases hxa : x ∈ acc <;> simp [hxk, hxa]
      rw [hfil, List.filter_cons]
      simp [hk]

theorem entryScore_rrfFold (f : Nat → ℚ) (ps : List (Nat × SearchResult))
    (acc : List RrfEntry) (k : Str) :
    entryScore (rrfFold f ps acc) k =
      entryScore acc k +
        ((ps.filter (fun p => decide (rrfKey p.2 = k))).map (fun p => f p.1)).sum := by
  induction ps generalizing acc with
  | nil => simp [rrfFold]
  | cons p t ih =>
    rw [rrfFold_cons, ih, entryScore_rrfBump, List.filter_cons]
    by_cases hp : rrfKey p.2 = k
    · simp only [hp, decide_True, if_true, List.map_cons, List.sum_cons]
      ring
    · simp only [hp, decide_False, Bool.false_eq_true, if_false, add_zero]

theorem entryFirst_rrfFold (f : Nat → ℚ) (ps : List (Nat × SearchResult))
    (acc : List RrfEntry) (k : Str) :
    entryFirst (rrfFold f ps acc) k =
      match entryFirst acc k with
      | some x => some x
      | none => (ps.find? (fun p => decide (rrfKey p.2 = k))).map (fun p => p.2) := by
  induction ps generalizing acc with
  | nil =>
    simp only [rrfFold, List.foldl_nil, List.find?_nil, Option.map_none]
    cases hacc : entryFirst acc k <;> simp
  | cons p t ih =>
    rw [rrfFold_cons, ih, entryFirst_rrfBump]
    cases hacc : entryFirst acc k with
    | some x => simp
    | none =>
      by_cases hp : rrfKey p.2 = k
      · simp [List.find?_cons, hp]
      · simp [List.find?_cons, hp]

theorem firstSeen_nodup [DecidableEq κ] (ks : List κ) : (firstSeen ks).Nodup := by
  induction ks with
  | nil => exact List.nodup_nil
  | cons k t ih =>
    rw [firstSeen, List.nodup_cons]
    refine ⟨fun hmem => ?_, ih.filter _⟩
    have := List.of_mem_filter hmem
    simp at this

theorem mem_entries_eq (l : List RrfEntry) (hnd : (entriesKeys l).Nodup)
    (e : RrfEntry) (he : e ∈ l) :
    entryScore l e.key = e.rrfScore ∧ entryFirst l e.key = some e.firstResult := by
  induction l with
  | nil => cases he
  | cons e0 t ih =>
    rw [entriesKeys, List.map_cons, List.nodup_cons] at hnd
    rcases List.mem_cons.1 he with rfl | het
    · simp [entryScore, entryFirst]
    · have hne : e0.key ≠ e.key := by
        intro h
        exact hnd.1 (h ▸ List.mem_map_of_mem (fun e => e.key) het)
      constructor
      · rw [entryScore, if_neg hne]
        exact (ih hnd.2 het).1
      · rw [entryFirst, if_neg hne]
        exact (ih hnd.2 het).2

theorem insertByDesc_map (val : β → ℚ) (g : α → β) (x : α) (l : List α) :
    insertByDesc val (g x) (l.map g) = (insertByDesc (fun a => val (g a)) x l).map g := by
  induction l with
  | nil => rfl
  | cons y t ih =>
    rw [List.map_cons, insertByDesc, insertByDesc]
    by_cases h : val (g y) ≤ val (g x)
    · simp [h]
    · simp [h, ih]

theorem sortByDesc_map (val : β → ℚ) (g : α → β) (l : List α) :
    sortByDesc val (l.map g) = (sortByDesc (fun a => val (g a)) l).map g := by
  induction l with
  | nil => rfl
  | cons x t ih => rw [List.map_cons, sortByDesc, sortByDesc, ih, insertByDesc_map]

theorem insertByDesc_congr (val val' : α → ℚ) (x : α) (l : List α)
    (hx : val x = val' x) (h : ∀ a ∈ l, val a = val' a) :
    insertByDesc val x l = insertByDesc val' x l := by
  induction l with
  | nil => rfl
  | cons y t ih =>
    rw [insertByDesc, insertByDesc, hx, h y (List.mem_cons_self _ _),
      ih (fun a ha => h a (List.mem_cons_of_mem _ ha))]

theorem sortByDesc_congr (val val' : α → ℚ) (l : List α)
    (h : ∀ a ∈ l, val a = val' a) : sortByDesc val l = sortByDesc val' l := by
  induction l with
  | nil => rfl
  | cons x t ih =>
    rw [sortByDesc, sortByDesc, ih (fun a ha => h a (List.mem_cons_of_mem _ ha)),
      insertByDesc_congr val val' x _ (h x (List.mem_cons_self _ _))]
    intro a ha
    exact h a (List.mem_cons_of_mem _ (mem_sortByDesc.1 ha))

theorem filterMap_eq_map_of (l : List α) (f : α → Option β) (g : α → β)
    (h : ∀ a ∈ l, f a = some (g a)) : l.filterMap f = l.map g := by
  induction l with
  | nil => rfl
  | cons x t ih =>
    rw [List.filterMap_cons, h x (List.mem_cons_self _ _), List.map_cons,
      ih (fun a ha => h a (List.mem_cons_of_mem _ ha))]

theorem enumFrom_find?_snd (g : SearchResult → Bool) (rs : List SearchResult) (i : Nat) :
    ((List.enumFrom i rs).find? (fun p => g p.2)).map (fun p => p.2) = rs.find? g := by
  induction rs generalizing i with
  | nil => rfl
  | cons r t ih =>
    rw [List.enumFrom_cons, List.find?_cons, List.find?_cons]
    cases hg : g r
    · simpa using ih (i + 1)
    · rfl

theorem entriesKeys_rrfAccum (n q : Nat) (results : List SearchResult) :
    entriesKeys (rrfAccum n q results) = firstSeen (results.map rrfKey) := by
  rw [rrfAccum_eq_rrfFold, entriesKeys_rrfFold, foldl_insertKey_eq]
  have henum : results.enum.map (fun p => rrfKey p.2) = results.map rrfKey := by
    rw [show (fun p : Nat × SearchResult => rrfKey p.2) =
        (rrfKey ∘ Prod.snd) from rfl, ← List.map_map, List.enum_map_snd]
  rw [henum]
  simp [entriesKeys]

theorem entryScore_rrfAccum (n q : Nat) (results : List SearchResult) (k : Str) :
    entryScore (rrfAccum n q results) k = rrfSpecScore rrfKey n q results k := by
  rw [rrfAccum_eq_rrfFold, entryScore_rrfFold]
  simp [entryScore, rrfSpecScore]

theorem entryFirst_rrfAccum (n q : Nat) (results : List SearchResult) (k : Str) :
    entryFirst (rrfAccum n q results) k = firstWith rrfKey results k := by
  rw [rrfAccum_eq_rrfFold, entryFirst_rrfFold]
  simp only [entryFirst]
  rw [firstWith, List.enum, ← enumFrom_find?_snd (fun r => decide (rrfKey r = k))]

/-- **C4 (amended)**: for `q > 1` queries, `_rrf_merge` coincides with the
claim's description of the fusion stage — approximate per-occurrence ranks
`(i mod (n / q + 1)) + 1`, summed `1/(60 + rank)` per identity, first-seen
records retained, stable descending order with first-seen tie-breaking, and
truncation to the limit — with the candidate identity being the joined
string `collection ++ ":" ++ path` (which coincides with the pair
`(collection, path)` whenever no collection name contains a colon), not the
pair itself. -/
theorem rrfMerge_eq_spec (results : List SearchResult) (queries : List Str)
    (limit : Nat) (hq : 1 < queries.length) :
    rrfMerge results queries limit = rrfMergeSpec rrfKey results queries limit := by
  unfold rrfMerge rrfMergeSpec
  have hkeys : entriesKeys (rrfAccum results.length queries.length results) =
      firstSeen (results.map rrfKey) :=
    entriesKeys_rrfAccum results.length queries.length results
  have hnd : (entriesKeys (rrfAccum results.length queries.length results)).Nodup := by
    rw [hkeys]
    exact firstSeen_nodup _
  have h1 : sortByDesc (rrfSpecScore rrfKey results.length queries.length results)
      (firstSeen (results.map rrfKey)) =
      (sortByDesc (fun e => e.rrfScore)
        (rrfAccum results.length queries.length results)).map (fun e => e.key) := by
    rw [← hkeys, entriesKeys, sortByDesc_map]
    congr 1
    apply sortByDesc_congr
    intro e he
    rw [← entryScore_rrfAccum, (mem_entries_eq _ hnd e he).1]
  rw [h1, ← List.map_take, List.filterMap_map]
  symm
  apply filterMap_eq_map_of
  intro e he
  have he' : e ∈ rrfAccum results.length queries.length results :=
    mem_sortByDesc.1 (List.mem_of_mem_take he)
  show firstWith rrfKey results e.key = some e.firstResult
  rw [← entryFirst_rrfAccum, (mem_entries_eq _ hnd e he').2]

/-- **C4 (counterexample)**: the code keys candidates by the string
`f"{collection}:{path}"`, not by the pair `(collection, path)`: the distinct
identities `("a:b", "c")` and `("a", "b:c")` collide on `"a:b:c"`, so
`_rrf_merge` fuses the two occurrences into one candidate, while the claim's
per-pair accumulation would keep both. -/
theorem c4_counterexample :
    rrfMerge [resR1, resR2] [str "qa", str "qb"] 10 = [resR1] ∧
      rrfMergeSpec (fun r => (r.collection, r.path)) [resR1, resR2]
          [str "qa", str "qb"] 10 = [resR1, resR2] ∧
      ([resR1] : List SearchResult) ≠ [resR1, resR2] := by
  refine ⟨?_, ?_, by decide⟩
  · norm_num [rrfMerge, rrfAccum, rrfBump, rrfKey, approxRank, sortByDesc, insertByDesc,
      resR1, resR2, str, List.enum, List.enumFrom]
  · norm_num [rrfMergeSpec, rrfSpecScore, firstSeen, firstWith, sortByDesc, insertByDesc,
      resR1, resR2, str, List.enum, List.enumFrom, approxRank, List.find?]
    norm_num [List.filter]
    simp +decide
    norm_num [firstWith, List.find?, List.filterMap_cons]
    simp +decide

/-- Witness for `rrfMerge_eq_spec` at a concrete two-query input. -/
theorem rrfMerge_eq_spec_witness :
    rrfMerge [resR1, resR2] [str "qa", str "qb"] 3 =
      rrfMergeSpec rrfKey [resR1, resR2] [str "qa", str "qb"] 3 :=
  rrfMerge_eq_spec [resR1, resR2] [str "qa", str "qb"] 3 (by decide)

end LocalSeek


